import Mathlib

/-
Verification development for the market-intelligence and ML signal engine.

Shallow embedding conventions, used consistently below:
* Go float64 values are modelled as exact rationals (the claims under check
  are formula-level identities and range facts, none of which depends on
  rounding); Go has no NaN or infinity on the code paths modelled here, and
  where the source guards against them the guard is noted in a comment.
* Go int and int64 are modelled as ℤ (or ℕ where the source value is a count
  that never goes negative); timestamps are integer milliseconds or
  nanoseconds as in the source.
* Database tables are modelled as lists of rows; a SQL UPDATE is a map over
  the rows, a transaction that fails is a rollback returning the original
  state, and unique constraints are explicit membership checks.
* math.Exp and math.Sqrt are uninterpreted float routines; they enter as explicit
  function parameters so that every definition stays executable.
-/

/-! ## Shared numeric helpers -/

/-- Embeds clamp from the marketintel package (part_027).  The source first
maps NaN and infinities to 0; over ℚ every value is finite so that branch is
vacuous and the remaining branches are kept verbatim. -/
def clamp (v lo hi : ℚ) : ℚ :=
  if v < lo then lo else if v > hi then hi else v

/-! ## Composite builder (marketintel BuildComposite, part_027) -/

inductive SignalDirection where
  | long
  | short
  | hold
deriving DecidableEq

structure CompositeComponent where
  score : ℚ
  confidence : ℚ
  available : Bool
deriving DecidableEq

/-- CompositeInput from part_027.  The FearGreedValue pointer feeds only the
free-text details string, which is not modelled. -/
structure CompositeInput where
  interval : String
  longThreshold : ℚ
  shortThreshold : ℚ
  fearGreed : CompositeComponent
  news : CompositeComponent
  reddit : CompositeComponent
  onchain : CompositeComponent
deriving DecidableEq

/-- CompositeResult from part_027, minus the free-text DetailsText field.
Weights are an association list standing for the Go map. -/
structure CompositeResult where
  score : ℚ
  confidence : ℚ
  direction : SignalDirection
  risk : ℕ
  weights : List (String × ℚ)
deriving DecidableEq

/-- The four named components with their base weights, in a fixed order (the
Go source iterates a map; every fold below is order-independent, so one fixed
linearization is taken). -/
def compositeComponents (inp : CompositeInput) : List (String × CompositeComponent × ℚ) :=
  [("fear_greed", inp.fearGreed, 1/5),
   ("news", inp.news, 7/20),
   ("reddit", inp.reddit, 1/4),
   ("onchain", inp.onchain, 1/5)]

def availableComponents (inp : CompositeInput) : List (String × CompositeComponent × ℚ) :=
  (compositeComponents inp).filter (fun c => c.2.1.available)

def activeWeight (inp : CompositeInput) : ℚ :=
  (availableComponents inp).foldl (fun a c => a + c.2.2) 0

/-- Raw composite score before the final clamp: sum of renormalized weight
times clamped component score. -/
def compositeRawScore (inp : CompositeInput) : ℚ :=
  (availableComponents inp).foldl
    (fun a c => a + (c.2.2 / activeWeight inp) * clamp c.2.1.score (-1) 1) 0

/-- Raw composite confidence before the final clamp. -/
def compositeRawConfidence (inp : CompositeInput) : ℚ :=
  (availableComponents inp).foldl
    (fun a c => a + (c.2.2 / activeWeight inp) * clamp c.2.1.confidence 0 1) 0

/-- BuildComposite from part_027, line for line: compute the active weight,
return the zero result when no component is available, else renormalize,
fuse, clamp, derive direction from the thresholds and risk from conviction. -/
def BuildComposite (inp : CompositeInput) : CompositeResult :=
  if activeWeight inp ≤ 0 then
    { score := 0, confidence := 0, direction := .hold, risk := 5, weights := [] }
  else
    let normalized := (availableComponents inp).map (fun c => (c.1, c.2.2 / activeWeight inp))
    let score := clamp (compositeRawScore inp) (-1) 1
    let confidence := clamp (compositeRawConfidence inp) 0 1
    let direction :=
      if score ≥ inp.longThreshold then SignalDirection.long
      else if score ≤ inp.shortThreshold then SignalDirection.short
      else SignalDirection.hold
    let conviction := |score| * confidence
    let risk : ℕ :=
      if conviction ≥ 7/10 then 2
      else if conviction ≥ 1/2 then 3
      else if conviction ≥ 3/10 then 4
      else 5
    { score := score, confidence := confidence, direction := direction,
      risk := risk, weights := normalized }

/-! ## Heuristic sentiment scorer (marketintel scorer, in scorer_test.go) -/

/-- ASCII lowering, the fragment of strings.ToLower exercised by the keyword
lists (all keywords are lowercase ASCII). -/
def goLowerChar (c : Char) : Char :=
  if 'A' ≤ c ∧ c ≤ 'Z' then Char.ofNat (c.toNat + 32) else c

/-- ASCII whitespace, the fragment of unicode.IsSpace used by
strings.TrimSpace on the inputs at hand. -/
def goIsSpace (c : Char) : Bool :=
  c = ' ' || c = '\t' || c = '\n' || c = '\x0b' || c = '\x0c' || c = '\r'

def trimSpaceChars (cs : List Char) : List Char :=
  ((cs.dropWhile goIsSpace).reverse.dropWhile goIsSpace).reverse

/-- Whether pat occurs as a contiguous run at the head of s. -/
def listStartsWith : List Char → List Char → Bool
  | [], _ => true
  | _ :: _, [] => false
  | p :: ps, c :: cs => p == c && listStartsWith ps cs

/-- strings.Contains: pat occurs somewhere inside text. -/
def strContains (text pat : List Char) : Bool :=
  match text with
  | [] => pat.isEmpty
  | _ :: rest => listStartsWith pat text || strContains rest pat

/-- countMatches from the scorer: how many of the tokens occur in the text
(each token counted once, by substring presence). -/
def countMatches (text : List Char) (tokens : List String) : ℕ :=
  tokens.countP (fun token => strContains text token.toList)

def bullishKeywords : List String :=
  ["bull", "breakout", "surge", "rally", "adoption", "outflow", "growth",
   "buy", "uptrend", "recover"]

def bearishKeywords : List String :=
  ["bear", "dump", "sell", "crash", "hack", "lawsuit", "ban", "inflow",
   "decline", "downtrend", "liquidation"]

/-- The lowercased trimmed text the scorer works on:
strings.ToLower (strings.TrimSpace (title ++ " " ++ excerpt)). -/
def sentimentText (title excerpt : String) : List Char :=
  (trimSpaceChars (title.toList ++ (' ' :: excerpt.toList))).map goLowerChar

/-- HeuristicSentiment from the scorer.  Returns (score, confidence, label);
the free-text reason is not modelled.  The empty-text early return gives
confidence 1/4, not the 7/20 the general formula would give. -/
def HeuristicSentiment (title excerpt : String) : ℚ × ℚ × String :=
  let text := sentimentText title excerpt
  if text = [] then (0, 1/4, "neutral")
  else
    let bull := countMatches text bullishKeywords
    let bear := countMatches text bearishKeywords
    let raw := ((bull : ℚ) - (bear : ℚ)) / ((bull : ℚ) + (bear : ℚ) + 1)
    let score := clamp raw (-1) 1
    let confidence :=
      clamp (7/20 + (1/10) * (((bull : ℤ) - (bear : ℤ)).natAbs : ℚ)) (1/4) (7/10)
    let label :=
      if score > 1/5 then "bullish"
      else if score < -(1/5) then "bearish"
      else "neutral"
    (score, confidence, label)

/-! ## Technical indicators (internal/ta/indicators.go) -/

/-- MeanStd from indicators.go: arithmetic mean and population standard
deviation.  math.Sqrt is passed in as an uninterpreted parameter. -/
def MeanStd (sqrt : ℚ → ℚ) (values : List ℚ) : ℚ × ℚ :=
  if values = [] then (0, 0)
  else
    let mean := (values.foldl (· + ·) 0) / (values.length : ℚ)
    let variance :=
      (values.foldl (fun a v => a + (v - mean) * (v - mean)) 0) / (values.length : ℚ)
    (mean, sqrt variance)

/-- The EMA recurrence out i = alpha * v i + (1 - alpha) * out (i-1). -/
def emaTail (alpha : ℚ) : ℚ → List ℚ → List ℚ
  | _, [] => []
  | prev, v :: vs =>
    let cur := alpha * v + (1 - alpha) * prev
    cur :: emaTail alpha cur vs

/-- EMASeries from indicators.go: empty input gives nil, period ≤ 1 copies
the input, otherwise alpha = 2/(period+1) with out 0 seeded at values 0. -/
def EMASeries (values : List ℚ) (period : ℤ) : List ℚ :=
  match values with
  | [] => []
  | v :: vs =>
    if period ≤ 1 then v :: vs
    else v :: emaTail (2 / ((period : ℚ) + 1)) v vs

/-- MACDSeries from indicators.go: line = fast EMA - slow EMA pointwise,
signal = EMA of the line. -/
def MACDSeries (values : List ℚ) (fast slow signal : ℤ) : List ℚ × List ℚ :=
  match values with
  | [] => ([], [])
  | _ :: _ =>
    let fastEMA := EMASeries values fast
    let slowEMA := EMASeries values slow
    let macdLine := List.zipWith (· - ·) fastEMA slowEMA
    (macdLine, EMASeries macdLine signal)

/-- rsiFromAvg from indicators.go. -/
def rsiFromAvg (avgGain avgLoss : ℚ) : ℚ :=
  if avgLoss = 0 then 100
  else 100 - 100 / (1 + avgGain / avgLoss)

/-- The seeding loop of RSISeries: for i = 1..period add positive deltas to
the gain sum and the negated non-positive deltas to the loss sum. -/
def rsiInitSums (closes : List ℚ) (period : ℕ) : ℚ × ℚ :=
  (List.range period).foldl
    (fun gl j =>
      let delta := closes.getD (j + 1) 0 - closes.getD j 0
      if delta > 0 then (gl.1 + delta, gl.2) else (gl.1, gl.2 - delta))
    (0, 0)

/-- Wilder-smoothed average gain and loss at index period + k, mirroring the
running avgGain and avgLoss of the RSISeries loop (indices are only read in
bounds when the series length exceeds the period, as the caller ensures). -/
def rsiAvg (closes : List ℚ) (period : ℕ) : ℕ → ℚ × ℚ
  | 0 =>
    let s := rsiInitSums closes period
    (s.1 / (period : ℚ), s.2 / (period : ℚ))
  | k + 1 =>
    let prev := rsiAvg closes period k
    let delta := closes.getD (period + k + 1) 0 - closes.getD (period + k) 0
    ((prev.1 * ((period : ℚ) - 1) + max delta 0) / (period : ℚ),
     (prev.2 * ((period : ℚ) - 1) + max (-delta) 0) / (period : ℚ))

/-- RSISeries from indicators.go.  Entries are Option ℚ with none standing
for the NaN placeholder the source writes into warm-up slots; a length of at
most period returns nil. -/
def RSISeries (closes : List ℚ) (period : ℕ) : List (Option ℚ) :=
  if closes.length ≤ period then []
  else
    (List.range closes.length).map (fun i =>
      if i < period then none
      else some (rsiFromAvg (rsiAvg closes period (i - period)).1
                            (rsiAvg closes period (i - period)).2))

/-- BollingerSeries from indicators.go, returning (middle, upper, lower);
none stands for the NaN written into indices below period - 1.  The window
at index i is values[i-period+1 .. i]. -/
def BollingerSeries (sqrt : ℚ → ℚ) (values : List ℚ) (period : ℤ) (stdDevs : ℚ) :
    List (Option ℚ) × List (Option ℚ) × List (Option ℚ) :=
  if values = [] then ([], [], [])
  else if period ≤ 0 then
    ((List.range values.length).map (fun _ => none),
     (List.range values.length).map (fun _ => none),
     (List.range values.length).map (fun _ => none))
  else
    let p := period.toNat
    let window := fun i => (values.drop (i + 1 - p)).take p
    ((List.range values.length).map (fun i =>
        if i + 1 < p then none else some (MeanStd sqrt (window i)).1),
     (List.range values.length).map (fun i =>
        if i + 1 < p then none
        else some ((MeanStd sqrt (window i)).1 + stdDevs * (MeanStd sqrt (window i)).2)),
     (List.range values.length).map (fun i =>
        if i + 1 < p then none
        else some ((MeanStd sqrt (window i)).1 - stdDevs * (MeanStd sqrt (window i)).2)))

/-! ## Candle bucketer (internal/provider/coingecko.go) -/

/-- A well-formed market-chart price point (the source skips raw rows with
fewer than two entries; points are modelled post-skip).  Timestamps are
integer milliseconds; the float-to-int64 cast in the source is exact for
every timestamp CoinGecko emits. -/
structure PricePoint where
  ts : ℤ
  price : ℚ
deriving DecidableEq

structure VolumePoint where
  ts : ℤ
  vol : ℚ
deriving DecidableEq

structure Candle where
  symbol : String
  interval : String
  openTime : ℤ
  openP : ℚ
  high : ℚ
  low : ℚ
  closeP : ℚ
  volume : ℚ
deriving DecidableEq

/-- intervalToDuration from coingecko.go, in milliseconds. -/
def intervalToDuration (interval : String) : ℤ :=
  if interval = "5m" then 300000
  else if interval = "15m" then 900000
  else if interval = "1h" then 3600000
  else if interval = "4h" then 14400000
  else if interval = "1d" then 86400000
  else 0

/-- Insertion into a sorted list; the sort below is one deterministic
linearization of the unstable sort.Slice in the source (safe because the
source only relies on the timestamp order). -/
def insertSorted (le : PricePoint → PricePoint → Bool) (x : PricePoint) :
    List PricePoint → List PricePoint
  | [] => [x]
  | y :: ys => if le x y then x :: y :: ys else y :: insertSorted le x ys

def sortPrices (le : PricePoint → PricePoint → Bool) : List PricePoint → List PricePoint
  | [] => []
  | x :: xs => insertSorted le x (sortPrices le xs)

def priceLE (a b : PricePoint) : Bool := a.ts ≤ b.ts

/-- The running OHLC state of one bucket (the open time is the key). -/
structure BucketAcc where
  openP : ℚ
  high : ℚ
  low : ℚ
  closeP : ℚ
deriving DecidableEq

/-- One price point folded into the bucket map (an association list in
first-seen order; the source sorts the keys afterwards, so the order here is
immaterial).  New buckets open at the price; existing buckets take the max
into high, the min into low and the price into close. -/
def updateBuckets (key : ℤ) (price : ℚ) :
    List (ℤ × BucketAcc) → List (ℤ × BucketAcc)
  | [] => [(key, ⟨price, price, price, price⟩)]
  | (k, b) :: rest =>
    if k = key then (k, ⟨b.openP, max b.high price, min b.low price, price⟩) :: rest
    else (k, b) :: updateBuckets key price rest

/-- Floor of the timestamp to the interval boundary: time.Truncate rounds
down to a multiple of the interval, and every supported interval divides a
day, so on millisecond timestamps this is floor division (Int division in
this development is Euclidean, which is floor for the positive divisors
used here). -/
def bucketStart (ts d : ℤ) : ℤ := (ts / d) * d

def bucketize (pricesSorted : List PricePoint) (d : ℤ) : List (ℤ × BucketAcc) :=
  pricesSorted.foldl (fun acc pt => updateBuckets (bucketStart pt.ts d) pt.price acc) []

def insertSortedKey (x : ℤ × BucketAcc) :
    List (ℤ × BucketAcc) → List (ℤ × BucketAcc)
  | [] => [x]
  | y :: ys => if x.1 ≤ y.1 then x :: y :: ys else y :: insertSortedKey x ys

def sortBuckets : List (ℤ × BucketAcc) → List (ℤ × BucketAcc)
  | [] => []
  | x :: xs => insertSortedKey x (sortBuckets xs)

/-- findClosestVolume from coingecko.go: the volume point whose timestamp
has the smallest absolute distance to the target wins, the first one on a
tie (the running minimum starts at math.MaxInt64 and is only replaced by a
strictly smaller distance). -/
def findClosestVolume (volumes : List VolumePoint) (targetMs : ℤ) : ℚ :=
  match volumes with
  | [] => 0
  | v0 :: _ =>
    (volumes.foldl
      (fun best v =>
        let diff := |v.ts - targetMs|
        if diff < best.2 then (v, diff) else best)
      (v0, 9223372036854775807)).1.vol

/-- buildCandlesFromMarketChart from coingecko.go: empty prices or an
unknown interval give an empty result; otherwise sort the prices by
timestamp, bucket them by floored timestamp, emit candles in ascending
bucket order, and assign each bucket the volume point closest to
bucketStart + interval. -/
def buildCandlesFromMarketChart (symbol interval : String)
    (prices : List PricePoint) (volumes : List VolumePoint) : List Candle :=
  if prices = [] then []
  else
    let d := intervalToDuration interval
    if d = 0 then []
    else
      let sorted := sortPrices priceLE prices
      let buckets := sortBuckets (bucketize sorted d)
      buckets.map (fun kb =>
        { symbol := symbol, interval := interval, openTime := kb.1,
          openP := kb.2.openP, high := kb.2.high, low := kb.2.low,
          closeP := kb.2.closeP,
          volume := findClosestVolume volumes (kb.1 + d) })

/-! ## Token-bucket rate limiter (provider RateLimiter, part_015) -/

/-- RateLimiter state (part_015).  Times are integer nanoseconds on a
monotone clock; tokens and maxTokens are Go ints whose values never go
negative on any code path, so they are carried as ℕ; refillInterval is a ℕ
duration (the theorems assume it positive, as the only constructor call,
8 tokens per 7.5 s, is). -/
structure RateLimiter where
  tokens : ℕ
  maxTokens : ℕ
  refillInterval : ℕ
  lastRefill : ℕ
deriving DecidableEq

def NewRateLimiter (maxTokens refillInterval now : ℕ) : RateLimiter :=
  { tokens := maxTokens, maxTokens := maxTokens,
    refillInterval := refillInterval, lastRefill := now }

/-- refill from part_015: mint elapsed / refillInterval tokens (integer
division), cap at maxTokens, and advance lastRefill by minted *
refillInterval rather than to now.  When no token is minted nothing moves. -/
def RateLimiter.refill (r : RateLimiter) (now : ℕ) : RateLimiter :=
  let elapsed := now - r.lastRefill
  let newTokens := elapsed / r.refillInterval
  if newTokens > 0 then
    let t := r.tokens + newTokens
    { r with
      tokens := if t > r.maxTokens then r.maxTokens else t,
      lastRefill := r.lastRefill + newTokens * r.refillInterval }
  else r

inductive WaitOutcome where
  | acquired
  | cancelled
deriving DecidableEq

/-- One loop iteration of Wait per schedule entry: the entry carries the
clock reading taken under the lock and whether ctx.Done had fired when the
select ran.  Lock, refill, take a token if one is there; otherwise return
the cancellation error if ctx is done, else sleep and loop.  none is the
still-looping case when the schedule runs out. -/
def RateLimiter.waitRun (r : RateLimiter) :
    List (ℕ × Bool) → Option (WaitOutcome × RateLimiter)
  | [] => none
  | (now, ctxDone) :: rest =>
    let r2 := r.refill now
    if r2.tokens > 0 then some (.acquired, { r2 with tokens := r2.tokens - 1 })
    else if ctxDone then some (.cancelled, r2)
    else r2.waitRun rest

/-! ## Logistic-regression classifier (models/logreg, part_019) -/

/-- The JSON artifact of the logistic-regression model (part_019). -/
structure Artifact where
  featureNames : List String
  weights : List ℚ
  bias : ℚ
  means : List ℚ
  stds : List ℚ
  l2 : ℚ
  learningRate : ℚ
  epochs : ℤ
deriving DecidableEq

structure Model where
  artifact : Artifact
deriving DecidableEq

/-- dot from part_019 (length mismatch gives 0; callers always agree). -/
def dotProd (a b : List ℚ) : ℚ :=
  if a.length ≠ b.length then 0
  else (a.zip b).foldl (fun s p => s + p.1 * p.2) 0

/-- normalize from part_019: per-feature standardization.  Trained
artifacts never carry a zero std (Train replaces 0 by 1). -/
def normalizeFeat (inp means stds : List ℚ) : List ℚ :=
  (inp.zip (means.zip stds)).map (fun p => (p.1 - p.2.1) / p.2.2)

/-- sigmoid from part_019, saturating at |x| > 35; math.Exp is the uninterpreted
parameter fexp. -/
def sigmoid (fexp : ℚ → ℚ) (x : ℚ) : ℚ :=
  if x > 35 then 1
  else if x < -35 then 0
  else 1 / (1 + fexp (-x))

/-- PredictProb from part_019: none is the nil receiver; a nil model or a
sample whose length differs from the weight vector gives 0.5. -/
def PredictProb (fexp : ℚ → ℚ) (m : Option Model) (sample : List ℚ) : ℚ :=
  match m with
  | none => 1/2
  | some mm =>
    if sample.length ≠ mm.artifact.weights.length then 1/2
    else sigmoid fexp
      (dotProd mm.artifact.weights
        (normalizeFeat sample mm.artifact.means mm.artifact.stds) + mm.artifact.bias)

/-- A JSON value, the image of encoding/json on the artifact.  Go writes
float64 values with a shortest round-tripping decimal, so a number is kept
as the exact rational it denotes. -/
inductive Json where
  | num (q : ℚ)
  | str (s : String)
  | arr (xs : List Json)
  | obj (fields : List (String × Json))

def Json.asNum : Json → Option ℚ
  | .num q => some q
  | _ => none

def Json.asStr : Json → Option String
  | .str s => some s
  | _ => none

def Json.asNumArr : Json → Option (List ℚ)
  | .arr xs => xs.mapM Json.asNum
  | _ => none

def Json.asStrArr : Json → Option (List String)
  | .arr xs => xs.mapM Json.asStr
  | _ => none

/-- A JSON integer field: Go decodes a JSON number into an int field only
when it is integral. -/
def Json.asInt : Json → Option ℤ
  | .num q => if q.den = 1 then some q.num else none
  | _ => none

/-- MarshalBinary from part_019 on a non-nil model: json.Marshal of the
artifact with its struct tags. -/
def MarshalBinary (m : Model) : Json :=
  .obj [("feature_names", .arr (m.artifact.featureNames.map Json.str)),
        ("weights", .arr (m.artifact.weights.map Json.num)),
        ("bias", .num m.artifact.bias),
        ("means", .arr (m.artifact.means.map Json.num)),
        ("stds", .arr (m.artifact.stds.map Json.num)),
        ("l2", .num m.artifact.l2),
        ("learning_rate", .num m.artifact.learningRate),
        ("epochs", .num (m.artifact.epochs : ℚ))]

/-- UnmarshalBinary from part_019: decode the JSON object, then reject an
artifact whose weights are empty or whose means or stds disagree in length
with the weights.  (The empty-bytes guard of the source precedes JSON
parsing and has no counterpart on an already-parsed value.) -/
def UnmarshalBinary (j : Json) : Option Model :=
  match j with
  | .obj fields =>
    match fields.lookup "feature_names", fields.lookup "weights",
          fields.lookup "bias", fields.lookup "means", fields.lookup "stds",
          fields.lookup "l2", fields.lookup "learning_rate",
          fields.lookup "epochs" with
    | some fn, some w, some b, some me, some st, some l2, some lr, some ep =>
      match fn.asStrArr, w.asNumArr, b.asNum, me.asNumArr, st.asNumArr,
            l2.asNum, lr.asNum, ep.asInt with
      | some fn, some w, some b, some me, some st, some l2, some lr, some ep =>
        if w.length = 0 ∨ w.length ≠ me.length ∨ w.length ≠ st.length then none
        else some ⟨⟨fn, w, b, me, st, l2, lr, ep⟩⟩
      | _, _, _, _, _, _, _, _ => none
    | _, _, _, _, _, _, _, _ => none
  | _ => none

/-! ## Model registry (internal/ml/features/repository.go) -/

/-- One ml_model_versions row, restricted to the columns the claims touch.
metricsJson carries the parse of the stored metrics_json document: none is
an unparseable document, some kvs a JSON object of numbers (metricValue in
the training service reads it with json.Unmarshal into map[string]float64
and then indexes it). -/
structure ModelRow where
  modelKey : String
  version : ℤ
  isActive : Bool
  activatedAt : Option ℤ
  metricsJson : Option (List (String × ℚ))
deriving DecidableEq

inductive RegError where
  | invalidPayload
  | duplicateVersion
  | duplicateActive
  | noRows
deriving DecidableEq

def activeRowsFor (s : List ModelRow) (key : String) : List ModelRow :=
  s.filter (fun r => r.modelKey == key && r.isActive)

/-- InsertModelVersion from repository.go: reject an empty model key or a
non-positive version; the INSERT then hits the table constraints created by
migration 000006_create_market_intel_phase7.up.sql — UNIQUE (model_key,
version) when that pair already exists, and the unique index
idx_ml_model_versions_active_unique ON (model_key) WHERE is_active = TRUE
when the row is flagged active while the key already has an active row. -/
def InsertModelVersion (s : List ModelRow) (m : ModelRow) :
    Except RegError (List ModelRow) :=
  if m.modelKey = "" ∨ m.version ≤ 0 then .error .invalidPayload
  else if s.any (fun r => r.modelKey == m.modelKey && r.version == m.version) then
    .error .duplicateVersion
  else if m.isActive && s.any (fun r => r.modelKey == m.modelKey && r.isActive) then
    .error .duplicateActive
  else .ok (s ++ [m])

/-- ActivateModel from repository.go, as one transaction: clear is_active
and activated_at on every row of the key, then set is_active and
activated_at = NOW() on the (key, version) row.  When that row does not
exist the second UPDATE affects no rows, pgx.ErrNoRows is returned and the
deferred rollback leaves the table untouched. -/
def ActivateModel (s : List ModelRow) (key : String) (version : ℤ) (now : ℤ) :
    Except RegError (List ModelRow) :=
  if s.any (fun r => r.modelKey == key && r.version == version) then
    .ok ((s.map (fun r =>
          if r.modelKey = key then { r with isActive := false, activatedAt := none }
          else r)).map (fun r =>
          if r.modelKey = key ∧ r.version = version then
            { r with isActive := true, activatedAt := some now }
          else r))
  else .error .noRows

/-- GetActiveModel from repository.go: the active row of the key with the
highest version (ORDER BY version DESC LIMIT 1). -/
def GetActiveModel (s : List ModelRow) (key : String) : Option ModelRow :=
  (activeRowsFor s key).foldl
    (fun best r =>
      match best with
      | none => some r
      | some b => if b.version < r.version then some r else best)
    none

/-- NextVersion from repository.go: COALESCE(MAX(version), 0) + 1. -/
def NextVersion (s : List ModelRow) (key : String) : ℤ :=
  (s.foldl (fun m r => if r.modelKey = key then max m r.version else m) 0) + 1

/-- One registry operation, for sequences of calls against the store. -/
inductive RegOp where
  | insert (m : ModelRow)
  | activate (key : String) (version : ℤ) (now : ℤ)

/-- A failed call leaves the table as it was (the INSERT is rejected whole,
the activation transaction rolls back). -/
def applyRegOp (s : List ModelRow) : RegOp → List ModelRow
  | .insert m =>
    match InsertModelVersion s m with
    | .ok s2 => s2
    | .error _ => s
  | .activate key version now =>
    match ActivateModel s key version now with
    | .ok s2 => s2
    | .error _ => s

def runRegOps (s : List ModelRow) (ops : List RegOp) : List ModelRow :=
  ops.foldl applyRegOp s

/-- Invariant I1: at most one active row per model key. -/
def ExclusiveActive (s : List ModelRow) : Prop :=
  ∀ key, (activeRowsFor s key).length ≤ 1

/-- The unique (model_key, version) table constraint as a state predicate. -/
def UniqueVersions (s : List ModelRow) : Prop :=
  ∀ key v, (s.filter (fun r => r.modelKey == key && r.version == v)).length ≤ 1

/-! ## Training service promotion (internal/ml/training/service.go) -/

/-- metricValue from service.go: json.Unmarshal of the stored metrics into
map[string]float64, then the key lookup; an unparseable document or a
missing key gives (0, false), modelled as none. -/
def metricValue (metrics : Option (List (String × ℚ))) (key : String) : Option ℚ :=
  match metrics with
  | none => none
  | some kvs => kvs.lookup key

/-- shouldPromote from service.go: promote when no model is active; when
the active version is the new version return its active flag; otherwise
require at least 300 test rows and either no parseable auc on the active
model or an improvement of at least 0.01. -/
def shouldPromote (s : List ModelRow) (key : String) (newAUC : ℚ)
    (testCount : ℤ) (newVersion : ℤ) : Bool :=
  match GetActiveModel s key with
  | none => true
  | some active =>
    if active.version = newVersion then active.isActive
    else if testCount < 300 then false
    else
      match metricValue active.metricsJson "auc" with
      | none => true
      | some activeAUC => decide (newAUC ≥ activeAUC + 1/100)

/-- persistAndMaybePromote from service.go, restricted to the registry
interaction: take the next version, insert it inactive with the metrics
document, decide promotion (newAUC is the auc entry of the metrics map,
zero when absent, exactly the Go map index), and activate on a positive
decision.  An activation failure is recorded on the result (promoted stays
false) and does not fail the call.  Returns (state, version, promoted). -/
def persistAndMaybePromote (s : List ModelRow) (key : String)
    (metrics : List (String × ℚ)) (testCount : ℤ) (now : ℤ) :
    Except RegError (List ModelRow × ℤ × Bool) :=
  let version := NextVersion s key
  match InsertModelVersion s
      { modelKey := key, version := version, isActive := false,
        activatedAt := none, metricsJson := some metrics } with
  | .error e => .error e
  | .ok s1 =>
    let newAUC := (metrics.lookup "auc").getD 0
    if shouldPromote s1 key newAUC testCount version then
      match ActivateModel s1 key version now with
      | .error _ => .ok (s1, version, false)
      | .ok s2 => .ok (s2, version, true)
    else .ok (s1, version, false)

/-! ## Prediction resolution (predictions repository, part_020) -/

/-- One ml_predictions row, restricted to the resolution columns. -/
structure PredRow where
  id : ℤ
  resolvedAt : Option ℤ
  actualUp : Option Bool
  isCorrect : Option Bool
  realizedReturn : Option ℚ
deriving DecidableEq

/-- The row transform of the single UPDATE in ResolvePrediction: only a row
with the requested id that is still unresolved is written; resolved_at
takes NOW() and the three outcome columns their arguments. -/
def resolveUpdater (pid : ℤ) (au ic : Bool) (rr : ℚ) (now : ℤ)
    (r : PredRow) : PredRow :=
  if r.id = pid ∧ r.resolvedAt = none then
    { r with resolvedAt := some now, actualUp := some au,
             isCorrect := some ic, realizedReturn := some rr }
  else r

/-- ResolvePrediction from part_020: run the guarded UPDATE; when it
affects no row return pgx.ErrNoRows (the no-op still commits, leaving the
table unchanged). -/
def ResolvePrediction (s : List PredRow) (pid : ℤ) (au ic : Bool) (rr : ℚ)
    (now : ℤ) : Except String (List PredRow) :=
  let s2 := s.map (resolveUpdater pid au ic rr now)
  let affected := s.countP (fun r => decide (r.id = pid ∧ r.resolvedAt = none))
  if affected = 0 then .error "no rows in result set" else .ok s2

/-! ## Helper lemmas -/

theorem clamp_le {v lo hi : ℚ} (h : lo ≤ hi) : clamp v lo hi ≤ hi := by
  unfold clamp
  split_ifs with h1 h2
  · exact h
  · exact le_refl hi
  · exact le_of_not_lt h2

theorem le_clamp {v lo hi : ℚ} (h : lo ≤ hi) : lo ≤ clamp v lo hi := by
  unfold clamp
  split_ifs with h1 h2
  · exact le_refl lo
  · exact h
  · exact le_of_not_lt h1

theorem clamp_eq_self {v lo hi : ℚ} (h1 : lo ≤ v) (h2 : v ≤ hi) :
    clamp v lo hi = v := by
  unfold clamp
  rw [if_neg (not_lt.2 h1), if_neg (not_lt.2 h2)]

/-! ## C9: prediction resolution -/

/-- C9: prediction resolution is monotone and at-most-once: the single
resolving UPDATE is guarded by resolvedAt IS NULL, so a row whose
resolvedAt is set is never touched again — when every row of the id is
already resolved the call errors and the table is unchanged, the updater
fixes every resolved row, and a successful call keeps every resolved row
at its position unchanged. -/
theorem prediction_resolution_at_most_once
    (s : List PredRow) (pid : ℤ) (au ic : Bool) (rr : ℚ) (now : ℤ) :
    ((∀ r ∈ s, r.id = pid → r.resolvedAt ≠ none) →
      ResolvePrediction s pid au ic rr now = .error "no rows in result set" ∧
      s.map (resolveUpdater pid au ic rr now) = s) ∧
    (∀ r : PredRow, r.resolvedAt ≠ none → resolveUpdater pid au ic rr now r = r) ∧
    (∀ s2, ResolvePrediction s pid au ic rr now = .ok s2 →
      ∀ (i : ℕ) (r : PredRow), s[i]? = some r → r.resolvedAt ≠ none →
        s2[i]? = some r) := by
  have hfix : ∀ r : PredRow, r.resolvedAt ≠ none →
      resolveUpdater pid au ic rr now r = r := by
    intro r hr
    unfold resolveUpdater
    rw [if_neg (fun hc => hr hc.2)]
  have hmapfix : (∀ r ∈ s, r.id = pid → r.resolvedAt ≠ none) →
      s.map (resolveUpdater pid au ic rr now) = s := by
    intro h
    have heach : ∀ r ∈ s, resolveUpdater pid au ic rr now r = id r := by
      intro r hr
      by_cases hid : r.id = pid
      · exact hfix r (h r hr hid)
      · unfold resolveUpdater
        rw [if_neg (fun hc => hid hc.1)]
        rfl
    rw [List.map_congr_left heach, List.map_id]
  refine ⟨?_, hfix, ?_⟩
  · intro h
    refine ⟨?_, hmapfix h⟩
    unfold ResolvePrediction
    rw [if_pos]
    simp only [List.countP_eq_zero, decide_eq_true_eq, not_and]
    intro r hr hid
    exact h r hr hid
  · intro s2 hok i r hget hr
    have hs2 : s2 = s.map (resolveUpdater pid au ic rr now) := by
      simp only [ResolvePrediction] at hok
      by_cases hc : s.countP (fun r => decide (r.id = pid ∧ r.resolvedAt = none)) = 0
      · rw [if_pos hc] at hok
        exact absurd hok (by simp)
      · rw [if_neg hc] at hok
        exact (Except.ok.inj hok).symm
    subst hs2
    rw [List.getElem?_map, hget]
    simp [hfix r hr]

/-- C9 witness: resolving an already-resolved prediction errors and leaves
the table unchanged. -/
theorem prediction_resolution_at_most_once_witness :
    ResolvePrediction [⟨1, some 5, some true, some true, some 0⟩] 1 true true 0 7
      = .error "no rows in result set" ∧
    [⟨1, some 5, some true, some true, some 0⟩].map (resolveUpdater 1 true true 0 7)
      = [⟨1, some 5, some true, some true, some 0⟩] :=
  (prediction_resolution_at_most_once
    [⟨1, some 5, some true, some true, some 0⟩] 1 true true 0 7).1 (by decide)


/-! ## C10: PredictProb totality and saturation -/

/-- C10: PredictProb is total with values in the unit interval (given that
math.Exp is positive, which it is on the saturated domain |x| ≤ 35); a nil
model or a sample of the wrong length gives exactly 0.5; and the sigmoid
saturates to exactly 1 above 35 and exactly 0 below -35, so the exponential
is never taken on an input that could overflow. -/
theorem predict_prob_total_and_saturating
    (fexp : ℚ → ℚ) (hexp : ∀ y, 0 < fexp y) :
    (∀ sample, PredictProb fexp none sample = 1/2) ∧
    (∀ (mm : Model) (sample : List ℚ),
       sample.length ≠ mm.artifact.weights.length →
       PredictProb fexp (some mm) sample = 1/2) ∧
    (∀ x : ℚ, 35 < x → sigmoid fexp x = 1) ∧
    (∀ x : ℚ, x < -35 → sigmoid fexp x = 0) ∧
    (∀ (m : Option Model) (sample : List ℚ),
       0 ≤ PredictProb fexp m sample ∧ PredictProb fexp m sample ≤ 1) := by
  have hsig : ∀ x : ℚ, 0 ≤ sigmoid fexp x ∧ sigmoid fexp x ≤ 1 := by
    intro x
    unfold sigmoid
    split_ifs with h1 h2
    · exact ⟨by norm_num, le_refl 1⟩
    · exact ⟨le_refl 0, by norm_num⟩
    · have he : 0 < fexp (-x) := hexp (-x)
      have hd : 0 < 1 + fexp (-x) := by linarith
      constructor
      · positivity
      · rw [div_le_one hd]
        linarith
  refine ⟨fun _ => rfl, ?_, ?_, ?_, ?_⟩
  · intro mm sample h
    simp only [PredictProb]
    rw [if_pos h]
  · intro x h
    unfold sigmoid
    rw [if_pos h]
  · intro x h
    unfold sigmoid
    rw [if_neg (by linarith), if_pos h]
  · intro m sample
    cases m with
    | none => exact ⟨by norm_num [PredictProb], by norm_num [PredictProb]⟩
    | some mm =>
      simp only [PredictProb]
      split_ifs
      · exact ⟨by norm_num, by norm_num⟩
      · exact hsig _

/-- C10 witness: with a concrete positive stand-in for math.Exp, a nil
model yields 0.5 and the bounds hold at a concrete model and sample. -/
theorem predict_prob_total_and_saturating_witness :
    PredictProb (fun _ => 1) none [3] = 1/2 ∧
    (0 ≤ PredictProb (fun _ => 1) (some ⟨⟨["f0"], [1], 0, [0], [1], 0, 0, 1⟩⟩) [2] ∧
     PredictProb (fun _ => 1) (some ⟨⟨["f0"], [1], 0, [0], [1], 0, 0, 1⟩⟩) [2] ≤ 1) :=
  ⟨(predict_prob_total_and_saturating (fun _ => 1) (fun _ => by norm_num)).1 [3],
   (predict_prob_total_and_saturating (fun _ => 1) (fun _ => by norm_num)).2.2.2.2
     (some ⟨⟨["f0"], [1], 0, [0], [1], 0, 0, 1⟩⟩) [2]⟩

/-! ## C4: rate limiter refill law and Wait -/

theorem refill_fields (r : RateLimiter) (now : ℕ)
    (htok : r.tokens ≤ r.maxTokens) (hpos : 0 < r.refillInterval)
    (hle : r.lastRefill ≤ now) :
    (r.refill now).tokens
        = min (r.tokens + (now - r.lastRefill) / r.refillInterval) r.maxTokens ∧
    (r.refill now).lastRefill
        = r.lastRefill + ((now - r.lastRefill) / r.refillInterval) * r.refillInterval ∧
    (r.refill now).maxTokens = r.maxTokens ∧
    (r.refill now).refillInterval = r.refillInterval := by
  simp only [RateLimiter.refill]
  generalize (now - r.lastRefill) / r.refillInterval = m
  split_ifs with hm hcap
  · refine ⟨?_, rfl, rfl, rfl⟩
    show r.maxTokens = min (r.tokens + m) r.maxTokens
    omega
  · refine ⟨?_, rfl, rfl, rfl⟩
    show r.tokens + m = min (r.tokens + m) r.maxTokens
    omega
  · have h0 : m = 0 := by omega
    subst h0
    refine ⟨?_, ?_, rfl, rfl⟩
    · show r.tokens = min (r.tokens + 0) r.maxTokens
      omega
    · show r.lastRefill = r.lastRefill + 0 * r.refillInterval
      simp

/-- C4: the lazy refill law — on each Wait the minted token count is the
elapsed time since lastRefill integer-divided by refillInterval, the token
count after minting is capped at maxTokens, and lastRefill advances by
exactly minted * refillInterval rather than to now, preserving fractional
elapsed time; Wait succeeds only by decrementing the post-refill token
count by one, and returns the cancellation error only when ctx is done
while no token is available (post-refill count zero). -/
theorem rate_limiter_refill_and_wait :
    (∀ (r : RateLimiter) (now : ℕ),
       r.tokens ≤ r.maxTokens → 0 < r.refillInterval → r.lastRefill ≤ now →
       (r.refill now).tokens
           = min (r.tokens + (now - r.lastRefill) / r.refillInterval) r.maxTokens ∧
       (r.refill now).lastRefill
           = r.lastRefill + ((now - r.lastRefill) / r.refillInterval) * r.refillInterval ∧
       (r.refill now).maxTokens = r.maxTokens ∧
       (r.refill now).refillInterval = r.refillInterval) ∧
    (∀ (r : RateLimiter) (sched : List (ℕ × Bool)) (res : RateLimiter),
       r.waitRun sched = some (.acquired, res) →
       ∃ r1 : RateLimiter, 0 < r1.tokens ∧ res = { r1 with tokens := r1.tokens - 1 }) ∧
    (∀ (r : RateLimiter) (sched : List (ℕ × Bool)) (res : RateLimiter),
       r.waitRun sched = some (.cancelled, res) → res.tokens = 0) := by
  refine ⟨refill_fields, ?_, ?_⟩
  · intro r sched
    induction sched generalizing r with
    | nil =>
      intro res h
      simp [RateLimiter.waitRun] at h
    | cons step rest ih =>
      intro res h
      simp only [RateLimiter.waitRun] at h
      split_ifs at h with h1 h2
      · simp only [Option.some.injEq, Prod.mk.injEq] at h
        exact ⟨r.refill step.1, h1, h.2.symm⟩
      · simp only [Option.some.injEq, Prod.mk.injEq] at h
        exact absurd h.1 (by simp)
      · exact ih (r.refill step.1) res h
  · intro r sched
    induction sched generalizing r with
    | nil =>
      intro res h
      simp [RateLimiter.waitRun] at h
    | cons step rest ih =>
      intro res h
      simp only [RateLimiter.waitRun] at h
      split_ifs at h with h1 h2
      · simp only [Option.some.injEq, Prod.mk.injEq] at h
        exact absurd h.1 (by simp)
      · simp only [Option.some.injEq, Prod.mk.injEq] at h
        rw [← h.2]
        omega
      · exact ih (r.refill step.1) res h

/-- C4 witness: from an empty bucket with capacity 8 and interval 5, at
time 12 exactly two tokens are minted, lastRefill advances by 10 (not to
12), and a Wait at that time acquires by decrementing to one token. -/
theorem rate_limiter_refill_and_wait_witness :
    (((⟨0, 8, 5, 0⟩ : RateLimiter).refill 12).tokens = min (0 + 12 / 5) 8 ∧
     ((⟨0, 8, 5, 0⟩ : RateLimiter).refill 12).lastRefill = 0 + 12 / 5 * 5) ∧
    (∃ r1 : RateLimiter, 0 < r1.tokens ∧
      (⟨1, 8, 5, 10⟩ : RateLimiter) = { r1 with tokens := r1.tokens - 1 }) := by
  have h1 := rate_limiter_refill_and_wait.1 ⟨0, 8, 5, 0⟩ 12
    (by decide) (by decide) (by decide)
  have h2 := rate_limiter_refill_and_wait.2.1 ⟨0, 8, 5, 0⟩ [(12, false)]
    ⟨1, 8, 5, 10⟩ (by decide)
  exact ⟨⟨h1.1, h1.2.1⟩, h2⟩

/-! ## C5: composite renormalization -/

theorem foldl_add_map {α : Type} (f : α → ℚ) (l : List α) (init : ℚ) :
    l.foldl (fun a c => a + f c) init = init + (l.map f).sum := by
  induction l generalizing init with
  | nil => simp
  | cons x xs ih =>
    simp only [List.foldl_cons, List.map_cons, List.sum_cons, ih]
    ring

theorem sum_map_div {α : Type} (f : α → ℚ) (l : List α) (d : ℚ) :
    (l.map (fun c => f c / d)).sum = (l.map f).sum / d := by
  induction l with
  | nil => simp
  | cons x xs ih => simp [ih, add_div]

theorem sum_map_neg {α : Type} (f : α → ℚ) (l : List α) :
    (l.map (fun c => -(f c))).sum = -((l.map f).sum) := by
  induction l with
  | nil => simp
  | cons x xs ih =>
    simp only [List.map_cons, List.sum_cons, ih]
    ring

theorem mem_compositeComponents_weight {inp : CompositeInput}
    {c : String × CompositeComponent × ℚ} (hc : c ∈ compositeComponents inp) :
    c.2.2 = 1/5 ∨ c.2.2 = 7/20 ∨ c.2.2 = 1/4 := by
  simp only [compositeComponents, List.mem_cons, List.not_mem_nil, or_false] at hc
  rcases hc with rfl | rfl | rfl | rfl <;> norm_num

theorem mem_available_weight_pos {inp : CompositeInput}
    {c : String × CompositeComponent × ℚ} (hc : c ∈ availableComponents inp) :
    0 < c.2.2 := by
  have hmem := (List.mem_filter.1 hc).1
  rcases mem_compositeComponents_weight hmem with h | h | h <;> rw [h] <;> norm_num

theorem activeWeight_eq_sum (inp : CompositeInput) :
    activeWeight inp = ((availableComponents inp).map (fun c => c.2.2)).sum := by
  unfold activeWeight
  rw [foldl_add_map]
  ring

theorem availableComponents_ne_nil {inp : CompositeInput}
    (h : inp.fearGreed.available = true ∨ inp.news.available = true ∨
         inp.reddit.available = true ∨ inp.onchain.available = true) :
    availableComponents inp ≠ [] := by
  rcases h with h | h | h | h
  · have hm : ("fear_greed", inp.fearGreed, (1:ℚ)/5) ∈ availableComponents inp :=
      List.mem_filter.2 ⟨by simp [compositeComponents], by simpa using h⟩
    exact List.ne_nil_of_mem hm
  · have hm : ("news", inp.news, (7:ℚ)/20) ∈ availableComponents inp :=
      List.mem_filter.2 ⟨by simp [compositeComponents], by simpa using h⟩
    exact List.ne_nil_of_mem hm
  · have hm : ("reddit", inp.reddit, (1:ℚ)/4) ∈ availableComponents inp :=
      List.mem_filter.2 ⟨by simp [compositeComponents], by simpa using h⟩
    exact List.ne_nil_of_mem hm
  · have hm : ("onchain", inp.onchain, (1:ℚ)/5) ∈ availableComponents inp :=
      List.mem_filter.2 ⟨by simp [compositeComponents], by simpa using h⟩
    exact List.ne_nil_of_mem hm

theorem activeWeight_pos {inp : CompositeInput}
    (h : inp.fearGreed.available = true ∨ inp.news.available = true ∨
         inp.reddit.available = true ∨ inp.onchain.available = true) :
    0 < activeWeight inp := by
  rw [activeWeight_eq_sum]
  apply List.sum_pos
  · intro x hx
    simp only [List.mem_map] at hx
    obtain ⟨c, hc, rfl⟩ := hx
    exact mem_available_weight_pos hc
  · simp only [ne_eq, List.map_eq_nil_iff]
    exact availableComponents_ne_nil h

/-- C5: with at least one available component, BuildComposite returns
weights that are exactly the available components with their base weights
renormalized by the active weight, the weights sum to exactly 1 (hence
within 1e-9), the score is the weighted sum of clamped component scores
with the trailing clamp a no-op, likewise the confidence; with no
available component the result is score 0, confidence 0, direction hold,
risk 5 and an empty weight map. -/
theorem composite_renormalization (inp : CompositeInput)
    (h : inp.fearGreed.available = true ∨ inp.news.available = true ∨
         inp.reddit.available = true ∨ inp.onchain.available = true) :
    (BuildComposite inp).weights
        = (availableComponents inp).map (fun c => (c.1, c.2.2 / activeWeight inp)) ∧
    ((BuildComposite inp).weights.map Prod.snd).sum = 1 ∧
    (BuildComposite inp).score = compositeRawScore inp ∧
    (BuildComposite inp).confidence = compositeRawConfidence inp ∧
    (∀ inp2 : CompositeInput,
       inp2.fearGreed.available = false → inp2.news.available = false →
       inp2.reddit.available = false → inp2.onchain.available = false →
       BuildComposite inp2 =
         { score := 0, confidence := 0, direction := .hold, risk := 5,
           weights := [] }) := by
  have hA : 0 < activeWeight inp := activeWeight_pos h
  have hnb : ¬ activeWeight inp ≤ 0 := not_le.2 hA
  have hwsum : ((availableComponents inp).map
      (fun c => c.2.2 / activeWeight inp)).sum = 1 := by
    rw [sum_map_div, ← activeWeight_eq_sum, div_self (ne_of_gt hA)]
  have hscore_eq : compositeRawScore inp =
      ((availableComponents inp).map
        (fun c => (c.2.2 / activeWeight inp) * clamp c.2.1.score (-1) 1)).sum := by
    unfold compositeRawScore
    rw [foldl_add_map]
    ring
  have hconf_eq : compositeRawConfidence inp =
      ((availableComponents inp).map
        (fun c => (c.2.2 / activeWeight inp) * clamp c.2.1.confidence 0 1)).sum := by
    unfold compositeRawConfidence
    rw [foldl_add_map]
    ring
  have hterm_pos : ∀ c ∈ availableComponents inp, 0 ≤ c.2.2 / activeWeight inp := by
    intro c hc
    exact le_of_lt (div_pos (mem_available_weight_pos hc) hA)
  have hscore_hi : compositeRawScore inp ≤ 1 := by
    rw [hscore_eq]
    calc ((availableComponents inp).map
            (fun c => (c.2.2 / activeWeight inp) * clamp c.2.1.score (-1) 1)).sum
        ≤ ((availableComponents inp).map (fun c => c.2.2 / activeWeight inp)).sum := by
          apply List.sum_le_sum
          intro c hc
          have hw := hterm_pos c hc
          have hcl : clamp c.2.1.score (-1) 1 ≤ 1 := clamp_le (by norm_num)
          nlinarith
      _ = 1 := hwsum
  have hscore_lo : -1 ≤ compositeRawScore inp := by
    rw [hscore_eq]
    calc (-1 : ℚ)
        = ((availableComponents inp).map (fun c => -(c.2.2 / activeWeight inp))).sum := by
          rw [sum_map_neg, hwsum]
      _ ≤ ((availableComponents inp).map
            (fun c => (c.2.2 / activeWeight inp) * clamp c.2.1.score (-1) 1)).sum := by
          apply List.sum_le_sum
          intro c hc
          have hw := hterm_pos c hc
          have hcl : -1 ≤ clamp c.2.1.score (-1) 1 := le_clamp (by norm_num)
          nlinarith
  have hconf_hi : compositeRawConfidence inp ≤ 1 := by
    rw [hconf_eq]
    calc ((availableComponents inp).map
            (fun c => (c.2.2 / activeWeight inp) * clamp c.2.1.confidence 0 1)).sum
        ≤ ((availableComponents inp).map (fun c => c.2.2 / activeWeight inp)).sum := by
          apply List.sum_le_sum
          intro c hc
          have hw := hterm_pos c hc
          have hcl : clamp c.2.1.confidence 0 1 ≤ 1 := clamp_le (by norm_num)
          nlinarith
      _ = 1 := hwsum
  have hconf_lo : 0 ≤ compositeRawConfidence inp := by
    rw [hconf_eq]
    apply List.sum_nonneg
    intro x hx
    simp only [List.mem_map] at hx
    obtain ⟨c, hc, rfl⟩ := hx
    have hw := hterm_pos c hc
    have hcl : 0 ≤ clamp c.2.1.confidence 0 1 := le_clamp (by norm_num)
    exact mul_nonneg hw hcl
  refine ⟨?_, ?_, ?_, ?_, ?_⟩
  · simp only [BuildComposite, if_neg hnb]
  · simp only [BuildComposite, if_neg hnb, List.map_map]
    exact hwsum
  · simp only [BuildComposite, if_neg hnb]
    exact clamp_eq_self hscore_lo hscore_hi
  · simp only [BuildComposite, if_neg hnb]
    exact clamp_eq_self hconf_lo hconf_hi
  · intro inp2 h1 h2 h3 h4
    have hav : availableComponents inp2 = [] := by
      simp [availableComponents, compositeComponents, h1, h2, h3, h4]
    have hz : activeWeight inp2 = 0 := by
      rw [activeWeight, hav]
      rfl
    simp [BuildComposite, hz]

/-- C5 witness: the concrete two-component scenario — only fear/greed at
-0.3/0.7 and news at -0.6/0.8 available — yields weights 4/11 and 7/11 on
exactly those two components, summing to 1. -/
theorem composite_renormalization_witness :
    (BuildComposite ⟨"1h", 1/5, -(1/5), ⟨-(3/10), 7/10, true⟩, ⟨-(3/5), 4/5, true⟩,
        ⟨0, 0, false⟩, ⟨0, 0, false⟩⟩).weights
      = [("fear_greed", 4/11), ("news", 7/11)] ∧
    ((BuildComposite ⟨"1h", 1/5, -(1/5), ⟨-(3/10), 7/10, true⟩, ⟨-(3/5), 4/5, true⟩,
        ⟨0, 0, false⟩, ⟨0, 0, false⟩⟩).weights.map Prod.snd).sum = 1 := by
  have hc := composite_renormalization
    ⟨"1h", 1/5, -(1/5), ⟨-(3/10), 7/10, true⟩, ⟨-(3/5), 4/5, true⟩,
        ⟨0, 0, false⟩, ⟨0, 0, false⟩⟩ (Or.inl rfl)
  refine ⟨?_, hc.2.1⟩
  rw [hc.1]
  simp [availableComponents, compositeComponents, activeWeight]
  norm_num

/-! ## C6: heuristic sentiment formula -/

/-- C6 (amended): for every title and excerpt whose trimmed concatenation
is non-empty, the heuristic baseline lowercases title + excerpt, counts
which of the 10 bullish and 11 bearish keywords occur, and returns score
(bull - bear)/(bull + bear + 1) clamped to [-1,1], confidence
clamp(0.35 + 0.1*|bull - bear|, 0.25, 0.70), and the bullish/bearish/
neutral label from the 0.2 thresholds.  (When the trimmed text is empty
the source instead returns score 0, confidence 0.25, label neutral.) -/
theorem heuristic_sentiment_formula (title excerpt : String)
    (h : sentimentText title excerpt ≠ []) :
    HeuristicSentiment title excerpt =
      (let bull := countMatches (sentimentText title excerpt) bullishKeywords
       let bear := countMatches (sentimentText title excerpt) bearishKeywords
       let score := clamp (((bull : ℚ) - (bear : ℚ)) / ((bull : ℚ) + (bear : ℚ) + 1)) (-1) 1
       (score,
        clamp (7/20 + (1/10) * (((bull : ℤ) - (bear : ℤ)).natAbs : ℚ)) (1/4) (7/10),
        if score > 1/5 then "bullish"
        else if score < -(1/5) then "bearish"
        else "neutral")) := by
  unfold HeuristicSentiment
  rw [if_neg h]

/-- C6 counterexample: on the empty title and excerpt the scorer returns
confidence 1/4, while the claimed formula clamp(0.35 + 0.1*|0-0|, 0.25,
0.70) gives 7/20. -/
theorem heuristic_sentiment_empty_text_cex :
    HeuristicSentiment "" "" = (0, 1/4, "neutral") ∧
    clamp (7/20 + (1/10) * (((0 : ℤ) - (0 : ℤ)).natAbs : ℚ)) (1/4) (7/10) = 7/20 ∧
    (1/4 : ℚ) ≠ 7/20 := by
  refine ⟨?_, ?_, by norm_num⟩
  · simp only [HeuristicSentiment]
    rw [if_pos (show sentimentText "" "" = [] from by decide)]
  · norm_num [clamp]

/-- C6 witness: the spec scenario — title Bitcoin breakout, excerpt bull
trend — scores 2/3 with confidence 11/20 and the bullish label. -/
theorem heuristic_sentiment_formula_witness :
    HeuristicSentiment "Bitcoin breakout" "bull trend" = (2/3, 11/20, "bullish") := by
  rw [heuristic_sentiment_formula "Bitcoin breakout" "bull trend" (by decide)]
  have hbull : countMatches (sentimentText "Bitcoin breakout" "bull trend")
      bullishKeywords = 2 := by decide
  have hbear : countMatches (sentimentText "Bitcoin breakout" "bull trend")
      bearishKeywords = 0 := by decide
  simp only [hbull, hbear]
  norm_num [clamp]

/-! ## C7: indicator series alignment -/

theorem emaTail_length (alpha prev : ℚ) (vs : List ℚ) :
    (emaTail alpha prev vs).length = vs.length := by
  induction vs generalizing prev with
  | nil => rfl
  | cons v vs ih => simp [emaTail, ih]

theorem EMASeries_length (values : List ℚ) (period : ℤ) :
    (EMASeries values period).length = values.length := by
  cases values with
  | nil => rfl
  | cons v vs =>
    simp only [EMASeries]
    split_ifs
    · rfl
    · simp [emaTail_length]

/-- C7 (amended): EMA, MACD and Bollinger outputs are aligned to the input
length with their leading warm-up positions NaN (none); RSI is aligned and
NaN below index 14 whenever the input is longer than the period, but
returns an empty series (not an aligned one) when the input length is at
most the period.  The first RSI value, at index 14, comes from the simple
averages of the first 14 deltas; later indices use the Wilder-smoothed
averages; a zero average loss gives RSI 100. -/
theorem indicator_series_alignment (sqrt : ℚ → ℚ) :
    (∀ (values : List ℚ) (period : ℤ),
       (EMASeries values period).length = values.length) ∧
    (∀ (values : List ℚ) (f s g : ℤ),
       (MACDSeries values f s g).1.length = values.length ∧
       (MACDSeries values f s g).2.length = values.length) ∧
    (∀ (values : List ℚ) (period : ℤ) (sd : ℚ), 0 < period →
       ((BollingerSeries sqrt values period sd).1.length = values.length ∧
        (BollingerSeries sqrt values period sd).2.1.length = values.length ∧
        (BollingerSeries sqrt values period sd).2.2.length = values.length) ∧
       (∀ i : ℕ, i < values.length → i + 1 < period.toNat →
          (BollingerSeries sqrt values period sd).1[i]? = some none ∧
          (BollingerSeries sqrt values period sd).2.1[i]? = some none ∧
          (BollingerSeries sqrt values period sd).2.2[i]? = some none)) ∧
    (∀ closes : List ℚ, closes.length ≤ 14 → RSISeries closes 14 = []) ∧
    (∀ closes : List ℚ, 14 < closes.length →
       (RSISeries closes 14).length = closes.length ∧
       (∀ i : ℕ, i < 14 → (RSISeries closes 14)[i]? = some none) ∧
       (RSISeries closes 14)[14]? =
         some (some (rsiFromAvg ((rsiInitSums closes 14).1 / (14 : ℚ))
                                ((rsiInitSums closes 14).2 / (14 : ℚ)))) ∧
       (∀ i : ℕ, 14 ≤ i → i < closes.length →
          (RSISeries closes 14)[i]? =
            some (some (rsiFromAvg (rsiAvg closes 14 (i - 14)).1
                                   (rsiAvg closes 14 (i - 14)).2)))) ∧
    (∀ g : ℚ, rsiFromAvg g 0 = 100) := by
  refine ⟨EMASeries_length, ?_, ?_, ?_, ?_, ?_⟩
  · intro values f s g
    cases values with
    | nil => exact ⟨rfl, rfl⟩
    | cons v vs =>
      simp only [MACDSeries]
      have hz : (List.zipWith (· - ·) (EMASeries (v :: vs) f)
          (EMASeries (v :: vs) s)).length = (v :: vs).length := by
        rw [List.length_zipWith, EMASeries_length, EMASeries_length]
        simp
      exact ⟨hz, by rw [EMASeries_length, hz]⟩
  · intro values period sd hp
    have hnp : ¬ period ≤ 0 := not_le.2 hp
    cases values with
    | nil =>
      refine ⟨⟨rfl, rfl, rfl⟩, ?_⟩
      intro i hi
      simp at hi
    | cons v vs =>
      simp only [BollingerSeries, if_neg (List.cons_ne_nil v vs), if_neg hnp]
      refine ⟨⟨by simp, by simp, by simp⟩, ?_⟩
      intro i hi hwarm
      rw [List.getElem?_map, List.getElem?_map, List.getElem?_map]
      rw [List.getElem?_range (by simpa using hi)]
      simp only [Option.map_some']
      simp [if_pos hwarm]
      omega
  · intro closes hlen
    simp only [RSISeries, if_pos hlen]
  · intro closes hlen
    have hnl : ¬ closes.length ≤ 14 := not_le.2 hlen
    simp only [RSISeries, if_neg hnl]
    refine ⟨by simp, ?_, ?_, ?_⟩
    · intro i hi
      rw [List.getElem?_map, List.getElem?_range (by omega)]
      simp only [Option.map_some']
      rw [if_pos hi]
    · rw [List.getElem?_map, List.getElem?_range (by omega)]
      simp only [Option.map_some']
      rw [if_neg (by omega)]
      rfl
    · intro i hge hi
      rw [List.getElem?_map, List.getElem?_range (by omega)]
      simp only [Option.map_some']
      rw [if_neg (by omega)]
  · intro g
    unfold rsiFromAvg
    rw [if_pos rfl]

/-- C7 counterexample: RSI on a one-element series with period 14 returns
an empty series, whose length differs from the input length. -/
theorem rsi_alignment_cex :
    (RSISeries [1] 14).length ≠ [(1 : ℚ)].length := by decide

/-- C7 witness: on a 16-element series RSI is aligned with the first 14
entries NaN, and Bollinger with period 2 on three values is aligned. -/
theorem indicator_series_alignment_witness :
    (RSISeries [1, 2, 1, 2, 1, 2, 1, 2, 1, 2, 1, 2, 1, 2, 1, 2] 14).length
      = ([1, 2, 1, 2, 1, 2, 1, 2, 1, 2, 1, 2, 1, 2, 1, 2] : List ℚ).length ∧
    (RSISeries [1, 2, 1, 2, 1, 2, 1, 2, 1, 2, 1, 2, 1, 2, 1, 2] 14)[0]? = some none ∧
    (BollingerSeries (fun q => q) [1, 2, 3] 2 2).1.length = ([1, 2, 3] : List ℚ).length := by
  have hr := (indicator_series_alignment (fun q => q)).2.2.2.2.1
    [1, 2, 1, 2, 1, 2, 1, 2, 1, 2, 1, 2, 1, 2, 1, 2] (by simp)
  have hb := ((indicator_series_alignment (fun q => q)).2.2.1
    [1, 2, 3] 2 2 (by norm_num)).1
  exact ⟨hr.1, hr.2.1 0 (by norm_num), hb.1⟩

/-! ## C8: logistic-regression artifact round-trip -/

theorem mapM_loop_asNum (l : List ℚ) (acc : List ℚ) :
    List.mapM.loop Json.asNum (l.map Json.num) acc = some (acc.reverse ++ l) := by
  induction l generalizing acc with
  | nil => simp [List.mapM.loop]
  | cons x xs ih => simp [List.mapM.loop, Json.asNum, ih]

theorem mapM_asNum_map_num (l : List ℚ) :
    (l.map Json.num).mapM Json.asNum = some l := by
  simpa [List.mapM] using mapM_loop_asNum l []

theorem mapM_loop_asStr (l : List String) (acc : List String) :
    List.mapM.loop Json.asStr (l.map Json.str) acc = some (acc.reverse ++ l) := by
  induction l generalizing acc with
  | nil => simp [List.mapM.loop]
  | cons x xs ih => simp [List.mapM.loop, Json.asStr, ih]

theorem mapM_asStr_map_str (l : List String) :
    (l.map Json.str).mapM Json.asStr = some l := by
  simpa [List.mapM] using mapM_loop_asStr l []

/-- C8: unmarshalling the marshalled artifact of any trained model (weights
non-empty and aligned with means and stds, as Train always produces)
recovers the model exactly — every field of the artifact, in particular
featureNames, weights, bias, means and stds — so PredictProb of the
round-tripped model agrees with the original on every sample and for every
exponential. -/
theorem logreg_artifact_roundtrip (a : Artifact)
    (h1 : a.weights ≠ []) (h2 : a.weights.length = a.means.length)
    (h3 : a.weights.length = a.stds.length) :
    UnmarshalBinary (MarshalBinary ⟨a⟩) = some ⟨a⟩ ∧
    (∀ (m2 : Model), UnmarshalBinary (MarshalBinary ⟨a⟩) = some m2 →
       ∀ (fexp : ℚ → ℚ) (x : List ℚ),
         PredictProb fexp (some m2) x = PredictProb fexp (some ⟨a⟩) x) := by
  have hrt : UnmarshalBinary (MarshalBinary ⟨a⟩) = some ⟨a⟩ := by
    simp [UnmarshalBinary, MarshalBinary, List.lookup, Json.asStrArr, Json.asNumArr,
          Json.asNum, Json.asInt, mapM_asStr_map_str, mapM_asNum_map_num,
          mapM_loop_asStr, mapM_loop_asNum,
          Rat.den_intCast, Rat.num_intCast, h1, h2, h3]
    constructor
    · intro hme
      apply h1
      have : a.weights.length = 0 := by rw [h2, hme]; rfl
      exact List.length_eq_zero.1 this
    · rw [← h2, ← h3]
  refine ⟨hrt, ?_⟩
  intro m2 hm2
  rw [hrt] at hm2
  rw [Option.some.inj hm2]
  intro fexp x
  rfl

/-- C8 witness: the round trip at a concrete one-feature artifact. -/
theorem logreg_artifact_roundtrip_witness :
    UnmarshalBinary (MarshalBinary ⟨⟨["f0"], [1], 0, [0], [1], 1/10000, 1/20, 600⟩⟩)
      = some ⟨⟨["f0"], [1], 0, [0], [1], 1/10000, 1/20, 600⟩⟩ :=
  (logreg_artifact_roundtrip ⟨["f0"], [1], 0, [0], [1], 1/10000, 1/20, 600⟩
    (by simp) (by simp) (by simp)).1

/-! ## C1: registry model exclusivity -/

/-- The per-row effect of the ActivateModel transaction (clear then set),
obtained by composing its two UPDATE maps. -/
def activateRowMap (key : String) (version : ℤ) (now : ℤ) (r : ModelRow) : ModelRow :=
  if r.modelKey = key then
    (if r.version = version then { r with isActive := true, activatedAt := some now }
     else { r with isActive := false, activatedAt := none })
  else r

theorem activateRowMap_modelKey (key : String) (version now : ℤ) (r : ModelRow) :
    (activateRowMap key version now r).modelKey = r.modelKey := by
  unfold activateRowMap
  split_ifs <;> rfl

theorem activateRowMap_version (key : String) (version now : ℤ) (r : ModelRow) :
    (activateRowMap key version now r).version = r.version := by
  unfold activateRowMap
  split_ifs <;> rfl

theorem activate_ok_eq {s : List ModelRow} {key : String} {version now : ℤ}
    {s2 : List ModelRow} (h : ActivateModel s key version now = .ok s2) :
    s2 = s.map (activateRowMap key version now) ∧
    s.any (fun r => r.modelKey == key && r.version == version) = true := by
  unfold ActivateModel at h
  split_ifs at h with hc
  · refine ⟨?_, hc⟩
    have hmaps := (Except.ok.inj h).symm
    rw [hmaps, List.map_map]
    apply List.map_congr_left
    intro r _
    unfold activateRowMap
    by_cases hk : r.modelKey = key
    · by_cases hv : r.version = version
      · simp [Function.comp, hk, hv]
      · simp [Function.comp, hk, hv]
    · simp [Function.comp, hk]

theorem activate_error {s : List ModelRow} {key : String} {version now : ℤ}
    (h : ¬ ∃ r ∈ s, r.modelKey = key ∧ r.version = version) :
    ActivateModel s key version now = .error .noRows := by
  unfold ActivateModel
  rw [if_neg]
  intro hc
  apply h
  obtain ⟨r, hr, hp⟩ := List.any_eq_true.1 hc
  rw [Bool.and_eq_true, beq_iff_eq, beq_iff_eq] at hp
  exact ⟨r, hr, hp⟩

theorem insert_preserves {s : List ModelRow} {m : ModelRow} {s2 : List ModelRow}
    (hU : UniqueVersions s) (hE : ExclusiveActive s)
    (h : InsertModelVersion s m = .ok s2) :
    UniqueVersions s2 ∧ ExclusiveActive s2 := by
  unfold InsertModelVersion at h
  split_ifs at h with h1 h2 h3
  have hs2 : s2 = s ++ [m] := (Except.ok.inj h).symm
  subst hs2
  constructor
  · intro key v
    rw [List.filter_append, List.length_append]
    by_cases hm : (m.modelKey == key && m.version == v) = true
    · rw [Bool.and_eq_true, beq_iff_eq, beq_iff_eq] at hm
      obtain ⟨hk, hv⟩ := hm
      subst hk
      subst hv
      have hz : (List.filter
          (fun r => r.modelKey == m.modelKey && r.version == m.version) s).length = 0 := by
        rw [List.length_eq_zero, List.filter_eq_nil_iff]
        intro r hr hp
        exact h2 (List.any_eq_true.2 ⟨r, hr, hp⟩)
      have hone := List.length_filter_le
        (fun r : ModelRow => r.modelKey == m.modelKey && r.version == m.version) [m]
      simp only [List.length_singleton] at hone
      omega
    · have hmf := eq_false_of_ne_true hm
      have hz : List.filter (fun r => r.modelKey == key && r.version == v) [m] = [] := by
        simp [List.filter_cons, hmf]
      rw [hz]
      have := hU key v
      simpa using this
  · intro key
    unfold ExclusiveActive activeRowsFor at *
    rw [List.filter_append, List.length_append]
    by_cases hm : (m.modelKey == key && m.isActive) = true
    · rw [Bool.and_eq_true, beq_iff_eq] at hm
      obtain ⟨hk, hact⟩ := hm
      subst hk
      have h3f : s.any (fun r => r.modelKey == m.modelKey && r.isActive) = false := by
        cases hb : (s.any fun r => r.modelKey == m.modelKey && r.isActive) with
        | false => rfl
        | true => exact absurd (by rw [hact, hb]; rfl) h3
      have hz : (List.filter
          (fun r => r.modelKey == m.modelKey && r.isActive) s).length = 0 := by
        rw [List.length_eq_zero, List.filter_eq_nil_iff]
        exact List.any_eq_false.1 h3f
      have hone := List.length_filter_le
        (fun r : ModelRow => r.modelKey == m.modelKey && r.isActive) [m]
      simp only [List.length_singleton] at hone
      omega
    · have hmf := eq_false_of_ne_true hm
      have hz : List.filter (fun r => r.modelKey == key && r.isActive) [m] = [] := by
        simp [List.filter_cons, hmf]
      rw [hz]
      have := hE key
      simpa using this

theorem activate_preserves {s : List ModelRow} {key : String} {version now : ℤ}
    {s2 : List ModelRow} (hU : UniqueVersions s) (hE : ExclusiveActive s)
    (h : ActivateModel s key version now = .ok s2) :
    UniqueVersions s2 ∧ ExclusiveActive s2 := by
  obtain ⟨hmap, -⟩ := activate_ok_eq h
  subst hmap
  constructor
  · intro key2 v
    rw [← List.countP_eq_length_filter, List.countP_map]
    have hcongr : List.countP
        ((fun r : ModelRow => r.modelKey == key2 && r.version == v)
          ∘ activateRowMap key version now) s
        = List.countP (fun r : ModelRow => r.modelKey == key2 && r.version == v) s := by
      apply List.countP_congr
      intro r _
      simp only [Function.comp_apply, activateRowMap_modelKey, activateRowMap_version]
    rw [hcongr, List.countP_eq_length_filter]
    exact hU key2 v
  · intro key2
    unfold activeRowsFor
    rw [← List.countP_eq_length_filter, List.countP_map]
    by_cases hk2 : key2 = key
    · subst hk2
      have hcongr : List.countP
          ((fun r : ModelRow => r.modelKey == key2 && r.isActive)
            ∘ activateRowMap key2 version now) s
          = List.countP
            (fun r : ModelRow => r.modelKey == key2 && r.version == version) s := by
        apply List.countP_congr
        intro r _
        simp only [Function.comp_apply]
        unfold activateRowMap
        by_cases hkr : r.modelKey = key2
        · by_cases hvr : r.version = version
          · simp [hkr, hvr]
          · simp [hkr, hvr]
        · simp [hkr]
      rw [hcongr, List.countP_eq_length_filter]
      exact hU key2 version
    · have hcongr : List.countP
          ((fun r : ModelRow => r.modelKey == key2 && r.isActive)
            ∘ activateRowMap key version now) s
          = List.countP (fun r : ModelRow => r.modelKey == key2 && r.isActive) s := by
        apply List.countP_congr
        intro r _
        simp only [Function.comp_apply]
        unfold activateRowMap
        by_cases hkr : r.modelKey = key
        · by_cases hvr : r.version = version
          · simp [hkr, hvr, hk2, Ne.symm hk2]
          · simp [hkr, hvr, hk2, Ne.symm hk2]
        · simp [hkr]
      rw [hcongr, List.countP_eq_length_filter]
      exact hE key2

theorem applyRegOp_preserves {s : List ModelRow} (op : RegOp)
    (hU : UniqueVersions s) (hE : ExclusiveActive s) :
    UniqueVersions (applyRegOp s op) ∧ ExclusiveActive (applyRegOp s op) := by
  cases op with
  | insert m =>
    simp only [applyRegOp]
    cases hi : InsertModelVersion s m with
    | ok s2 => exact insert_preserves hU hE hi
    | error e => exact ⟨hU, hE⟩
  | activate key version now =>
    simp only [applyRegOp]
    cases ha : ActivateModel s key version now with
    | ok s2 => exact activate_preserves hU hE ha
    | error e => exact ⟨hU, hE⟩

theorem runRegOps_preserves (ops : List RegOp) (s : List ModelRow)
    (hU : UniqueVersions s) (hE : ExclusiveActive s) :
    UniqueVersions (runRegOps s ops) ∧ ExclusiveActive (runRegOps s ops) := by
  induction ops generalizing s with
  | nil => exact ⟨hU, hE⟩
  | cons op ops ih =>
    have hstep := applyRegOp_preserves op hU hE
    exact ih (applyRegOp s op) hstep.1 hstep.2

/-- C1: model exclusivity.  Starting from any table satisfying the unique
(modelKey, version) constraint and invariant I1, every sequence of registry
operations preserves I1 (at most one active row per key), in particular
from the empty table; ActivateModel fails with no-rows when the target
(modelKey, version) row does not exist, rolling back so the state — hence
the active set — is unchanged; and a successful ActivateModel leaves, among
the rows of the key, exactly the target version active with activatedAt set
to the transaction time. -/
theorem registry_model_exclusivity :
    (∀ (s : List ModelRow) (ops : List RegOp),
       UniqueVersions s → ExclusiveActive s →
       UniqueVersions (runRegOps s ops) ∧ ExclusiveActive (runRegOps s ops)) ∧
    (∀ ops : List RegOp, ExclusiveActive (runRegOps [] ops)) ∧
    (∀ (s : List ModelRow) (key : String) (version now : ℤ),
       (¬ ∃ r ∈ s, r.modelKey = key ∧ r.version = version) →
       ActivateModel s key version now = .error .noRows ∧
       applyRegOp s (.activate key version now) = s) ∧
    (∀ (s : List ModelRow) (key : String) (version now : ℤ) (s2 : List ModelRow),
       ActivateModel s key version now = .ok s2 →
       ∀ r2 ∈ s2, r2.modelKey = key →
         (r2.isActive = true ↔ r2.version = version) ∧
         (r2.version = version → r2.activatedAt = some now)) := by
  refine ⟨fun s ops hU hE => runRegOps_preserves ops s hU hE, ?_, ?_, ?_⟩
  · intro ops
    exact (runRegOps_preserves ops []
      (fun _ _ => by simp) (fun _ => by simp [activeRowsFor])).2
  · intro s key version now hno
    have herr : ActivateModel s key version now = .error .noRows :=
      activate_error hno
    refine ⟨herr, ?_⟩
    simp only [applyRegOp, herr]
  · intro s key version now s2 h r2 hr2 hk2
    obtain ⟨hmap, -⟩ := activate_ok_eq h
    subst hmap
    obtain ⟨r, hr, hfr⟩ := List.mem_map.1 hr2
    subst hfr
    rw [activateRowMap_modelKey] at hk2
    unfold activateRowMap
    rw [if_pos hk2]
    by_cases hv : r.version = version
    · simp [hv]
    · simp [hv]

/-- C1 witness: activating a missing version errors and is a no-op, and a
concrete insert and activate sequence keeps I1. -/
theorem registry_model_exclusivity_witness :
    (ActivateModel [] "logreg" 1 0 = .error .noRows ∧
     applyRegOp [] (.activate "logreg" 1 0) = []) ∧
    ExclusiveActive (runRegOps []
      [.insert ⟨"logreg", 1, false, none, none⟩, .activate "logreg" 1 5]) :=
  ⟨registry_model_exclusivity.2.2.1 [] "logreg" 1 0 (by simp),
   registry_model_exclusivity.2.1
     [.insert ⟨"logreg", 1, false, none, none⟩, .activate "logreg" 1 5]⟩

/-! ## C2: training promotion gate -/

theorem foldl_max_version_le (s : List ModelRow) (key : String) (init : ℤ) :
    init ≤ s.foldl (fun m r => if r.modelKey = key then max m r.version else m) init := by
  induction s generalizing init with
  | nil => simp
  | cons r rs ih =>
    simp only [List.foldl_cons]
    refine le_trans ?_ (ih _)
    split_ifs
    · exact le_max_left _ _
    · exact le_refl _

theorem mem_version_le_foldl (s : List ModelRow) (key : String) (init : ℤ) :
    ∀ r ∈ s, r.modelKey = key →
      r.version ≤ s.foldl (fun m r => if r.modelKey = key then max m r.version else m) init := by
  induction s generalizing init with
  | nil => intro r hr; exact absurd hr (List.not_mem_nil r)
  | cons x xs ih =>
    intro r hr hk
    rcases List.mem_cons.1 hr with rfl | htail
    · simp only [List.foldl_cons, if_pos hk]
      exact le_trans (le_max_right init r.version) (foldl_max_version_le xs key _)
    · simp only [List.foldl_cons]
      exact ih _ r htail hk

theorem version_lt_NextVersion {s : List ModelRow} {key : String} :
    ∀ r ∈ s, r.modelKey = key → r.version < NextVersion s key := by
  intro r hr hk
  have := mem_version_le_foldl s key 0 r hr hk
  unfold NextVersion
  omega

theorem NextVersion_pos (s : List ModelRow) (key : String) : 0 < NextVersion s key := by
  have := foldl_max_version_le s key 0
  unfold NextVersion
  omega

theorem foldl_pick_mem {a : ModelRow} :
    ∀ (l : List ModelRow) (acc : Option ModelRow),
    l.foldl (fun best r => match best with
      | none => some r
      | some b => if b.version < r.version then some r else best) acc = some a →
    a ∈ l ∨ acc = some a := by
  intro l
  induction l with
  | nil => intro acc h; exact Or.inr h
  | cons r rs ih =>
    intro acc h
    simp only [List.foldl_cons] at h
    rcases ih _ h with hmem | hacc
    · exact Or.inl (List.mem_cons_of_mem _ hmem)
    · cases acc with
      | none =>
        left
        have : r = a := Option.some.inj hacc
        rw [← this]
        exact List.mem_cons_self r rs
      | some b =>
        dsimp only at hacc
        by_cases hv : b.version < r.version
        · rw [if_pos hv] at hacc
          left
          have : r = a := Option.some.inj hacc
          rw [← this]
          exact List.mem_cons_self r rs
        · rw [if_neg hv] at hacc
          exact Or.inr hacc

theorem getActive_mem {s : List ModelRow} {key : String} {a : ModelRow}
    (h : GetActiveModel s key = some a) :
    a ∈ s ∧ a.modelKey = key ∧ a.isActive = true := by
  unfold GetActiveModel at h
  rcases foldl_pick_mem _ _ h with hmem | hnone
  · have := List.mem_filter.1 hmem
    obtain ⟨hs, hp⟩ := this
    rw [Bool.and_eq_true, beq_iff_eq] at hp
    exact ⟨hs, hp.1, hp.2⟩
  · exact absurd hnone (by simp)

theorem getActive_append_inactive (s : List ModelRow) (m : ModelRow) (key : String)
    (hin : m.isActive = false) :
    GetActiveModel (s ++ [m]) key = GetActiveModel s key := by
  unfold GetActiveModel activeRowsFor
  rw [List.filter_append]
  have hz : List.filter (fun r => r.modelKey == key && r.isActive) [m] = [] := by
    simp [List.filter_cons, hin]
  rw [hz, List.append_nil]

theorem insert_fresh_ok (s : List ModelRow) (key : String)
    (metrics : List (String × ℚ)) (hkey : key ≠ "") :
    InsertModelVersion s ⟨key, NextVersion s key, false, none, some metrics⟩
      = .ok (s ++ [⟨key, NextVersion s key, false, none, some metrics⟩]) := by
  unfold InsertModelVersion
  dsimp only
  rw [if_neg, if_neg, if_neg]
  · simp
  · intro hc
    obtain ⟨r, hr, hp⟩ := List.any_eq_true.1 hc
    rw [Bool.and_eq_true, beq_iff_eq, beq_iff_eq] at hp
    have := version_lt_NextVersion r hr hp.1
    omega
  · rintro (hk | hv)
    · exact hkey hk
    · have := NextVersion_pos s key
      omega

theorem activate_fresh_ok (s1 : List ModelRow) (key : String) (version now : ℤ)
    (hmem : ∃ r ∈ s1, r.modelKey = key ∧ r.version = version) :
    ∃ s2, ActivateModel s1 key version now = .ok s2 := by
  obtain ⟨r, hr, hk, hv⟩ := hmem
  unfold ActivateModel
  rw [if_pos]
  · exact ⟨_, rfl⟩
  · refine List.any_eq_true.2 ⟨r, hr, ?_⟩
    rw [Bool.and_eq_true, beq_iff_eq, beq_iff_eq]
    exact ⟨hk, hv⟩

/-- C2: the promotion gate.  Within a training cycle the freshly inserted
version (NextVersion) is promoted iff no model is active for the key, or
otherwise iff the test set has at least 300 rows and the active model
either has no parseable auc in its stored metrics or is beaten by at least
0.01 of auc.  Moreover the fresh version is strictly greater than every
stored version of the key, so the already-active-version branch of
shouldPromote can never fire inside a cycle and the no-rewrite idempotence
clause holds vacuously. -/
theorem training_promotion_gate (s : List ModelRow) (key : String)
    (metrics : List (String × ℚ)) (testCount now : ℤ) (hkey : key ≠ "") :
    (∃ (s2 : List ModelRow) (promoted : Bool),
      persistAndMaybePromote s key metrics testCount now
        = .ok (s2, NextVersion s key, promoted) ∧
      (promoted = true ↔
        (GetActiveModel s key = none ∨
         ∃ active, GetActiveModel s key = some active ∧ 300 ≤ testCount ∧
           (metricValue active.metricsJson "auc" = none ∨
            ∃ aAUC, metricValue active.metricsJson "auc" = some aAUC ∧
              (metrics.lookup "auc").getD 0 ≥ aAUC + 1/100)))) ∧
    (∀ r ∈ s, r.modelKey = key → r.isActive = true →
       r.version ≠ NextVersion s key) := by
  constructor
  · have hins := insert_fresh_ok s key metrics hkey
    have hga : GetActiveModel
        (s ++ [⟨key, NextVersion s key, false, none, some metrics⟩]) key
        = GetActiveModel s key :=
      getActive_append_inactive s _ key rfl
    have hrowmem : ∃ r ∈ s ++ [⟨key, NextVersion s key, false, none, some metrics⟩],
        r.modelKey = key ∧ r.version = NextVersion s key :=
      ⟨⟨key, NextVersion s key, false, none, some metrics⟩, by simp, rfl, rfl⟩
    unfold persistAndMaybePromote
    dsimp only
    rw [hins]
    dsimp only
    cases hact : GetActiveModel s key with
    | none =>
      have hsp : shouldPromote
          (s ++ [⟨key, NextVersion s key, false, none, some metrics⟩]) key
          ((metrics.lookup "auc").getD 0) testCount (NextVersion s key) = true := by
        unfold shouldPromote
        rw [hga, hact]
      obtain ⟨s2, hs2⟩ := activate_fresh_ok _ key (NextVersion s key) now hrowmem
      rw [if_pos hsp, hs2]
      exact ⟨s2, true, rfl, by simp⟩
    | some active =>
      obtain ⟨hmem, hk, hactiv⟩ := getActive_mem hact
      have hne : active.version ≠ NextVersion s key :=
        ne_of_lt (version_lt_NextVersion active hmem hk)
      by_cases h300 : testCount < 300
      · have hsp : shouldPromote
            (s ++ [⟨key, NextVersion s key, false, none, some metrics⟩]) key
            ((metrics.lookup "auc").getD 0) testCount (NextVersion s key) = false := by
          unfold shouldPromote
          rw [hga, hact]
          dsimp only
          rw [if_neg hne, if_pos h300]
        rw [if_neg (by rw [hsp]; simp)]
        refine ⟨_, false, rfl, ?_⟩
        constructor
        · intro hcon
          exact absurd hcon (by simp)
        · rintro (hn | ⟨a2, ha2, h3a, -⟩)
          · exact absurd hn (by simp)
          · omega
      · cases hmv : metricValue active.metricsJson "auc" with
        | none =>
          have hsp : shouldPromote
              (s ++ [⟨key, NextVersion s key, false, none, some metrics⟩]) key
              ((metrics.lookup "auc").getD 0) testCount (NextVersion s key) = true := by
            unfold shouldPromote
            rw [hga, hact]
            dsimp only
            rw [if_neg hne, if_neg h300, hmv]
          obtain ⟨s2, hs2⟩ := activate_fresh_ok _ key (NextVersion s key) now hrowmem
          rw [if_pos hsp, hs2]
          refine ⟨s2, true, rfl, ?_⟩
          exact ⟨fun _ => Or.inr ⟨active, rfl, by omega, Or.inl hmv⟩, fun _ => rfl⟩
        | some aAUC =>
          by_cases himp : (metrics.lookup "auc").getD 0 ≥ aAUC + 1/100
          · have hsp : shouldPromote
                (s ++ [⟨key, NextVersion s key, false, none, some metrics⟩]) key
                ((metrics.lookup "auc").getD 0) testCount (NextVersion s key) = true := by
              unfold shouldPromote
              rw [hga, hact]
              dsimp only
              rw [if_neg hne, if_neg h300, hmv]
              exact decide_eq_true himp
            obtain ⟨s2, hs2⟩ := activate_fresh_ok _ key (NextVersion s key) now hrowmem
            rw [if_pos hsp, hs2]
            refine ⟨s2, true, rfl, ?_⟩
            exact ⟨fun _ => Or.inr ⟨active, rfl, by omega, Or.inr ⟨aAUC, hmv, himp⟩⟩,
                   fun _ => rfl⟩
          · have hsp : shouldPromote
                (s ++ [⟨key, NextVersion s key, false, none, some metrics⟩]) key
                ((metrics.lookup "auc").getD 0) testCount (NextVersion s key) = false := by
              unfold shouldPromote
              rw [hga, hact]
              dsimp only
              rw [if_neg hne, if_neg h300, hmv]
              exact decide_eq_false himp
            rw [if_neg (by rw [hsp]; simp)]
            refine ⟨_, false, rfl, ?_⟩
            constructor
            · intro hcon
              exact absurd hcon (by simp)
            · rintro (hn | ⟨a2, ha2, h3a, hrest⟩)
              · exact absurd hn (by simp)
              · have ha2e : active = a2 := Option.some.inj ha2
                rcases hrest with hmn | ⟨aAUC2, hmv2, himp2⟩
                · rw [← ha2e, hmv] at hmn
                  exact absurd hmn (by simp)
                · rw [← ha2e, hmv] at hmv2
                  have : aAUC = aAUC2 := Option.some.inj hmv2
                  rw [← this] at himp2
                  exact absurd himp2 himp
  · intro r hr hk _
    exact ne_of_lt (version_lt_NextVersion r hr hk)

/-- C2 witness: on an empty registry (no active model) the first insert
for a key is promoted, at version 1. -/
theorem training_promotion_gate_witness :
    ∃ (s2 : List ModelRow) (promoted : Bool),
      persistAndMaybePromote [] "logreg" [("auc", 3/5)] 10 0
        = .ok (s2, NextVersion [] "logreg", promoted) ∧ promoted = true := by
  obtain ⟨s2, promoted, hok, hiff⟩ :=
    (training_promotion_gate [] "logreg" [("auc", 3/5)] 10 0 (by simp)).1
  exact ⟨s2, promoted, hok, hiff.2 (Or.inl rfl)⟩

/-! ## C3: candle bucketing -/

theorem insertSorted_of_le (le : PricePoint → PricePoint → Bool) (x y : PricePoint)
    (ys : List PricePoint) (h : le x y = true) :
    insertSorted le x (y :: ys) = x :: y :: ys := by
  unfold insertSorted
  rw [if_pos h]

theorem sortPrices_of_pairwise (le : PricePoint → PricePoint → Bool)
    (l : List PricePoint) (h : l.Pairwise (fun a b => le a b = true)) :
    sortPrices le l = l := by
  induction l with
  | nil => rfl
  | cons x xs ih =>
    rw [List.pairwise_cons] at h
    obtain ⟨hx, hxs⟩ := h
    simp only [sortPrices]
    rw [ih hxs]
    cases xs with
    | nil => rfl
    | cons y ys => exact insertSorted_of_le le x y ys (hx y (List.mem_cons_self y ys))


/-- C3: the bucketing scenario of the spec, for every 5m-aligned base time
t0 = 300000k ms: prices (t0,10), (t0+2m,12), (t0+6m,8), (t0+8m,9) with
volumes (t0+5m,100), (t0+10m,200) at interval 5m produce exactly the two
candles open 10 / high 12 / low 10 / close 12 / volume 100 at t0 and
open 8 / high 9 / low 8 / close 9 / volume 200 at t0+5m; an empty price
series yields an empty result, and so does an interval string outside the
known set (intervalToDuration 0). -/
theorem candle_bucketing (k : ℤ) (sym : String) :
    buildCandlesFromMarketChart sym "5m"
      [⟨300000 * k, 10⟩, ⟨300000 * k + 120000, 12⟩,
       ⟨300000 * k + 360000, 8⟩, ⟨300000 * k + 480000, 9⟩]
      [⟨300000 * k + 300000, 100⟩, ⟨300000 * k + 600000, 200⟩] =
      [{ symbol := sym, interval := "5m", openTime := 300000 * k,
         openP := 10, high := 12, low := 10, closeP := 12, volume := 100 },
       { symbol := sym, interval := "5m", openTime := 300000 * k + 300000,
         openP := 8, high := 9, low := 8, closeP := 9, volume := 200 }] ∧
    (∀ (sym2 iv : String) (volumes : List VolumePoint),
       buildCandlesFromMarketChart sym2 iv [] volumes = []) ∧
    (∀ (sym2 iv : String) (prices : List PricePoint) (volumes : List VolumePoint),
       intervalToDuration iv = 0 →
       buildCandlesFromMarketChart sym2 iv prices volumes = []) := by
  refine ⟨?_, ?_, ?_⟩
  · have hd : intervalToDuration "5m" = 300000 := rfl
    have hsort : sortPrices priceLE
        [⟨300000 * k, 10⟩, ⟨300000 * k + 120000, 12⟩,
         ⟨300000 * k + 360000, 8⟩, ⟨300000 * k + 480000, 9⟩] =
        [⟨300000 * k, 10⟩, ⟨300000 * k + 120000, 12⟩,
         ⟨300000 * k + 360000, 8⟩, ⟨300000 * k + 480000, 9⟩] := by
      apply sortPrices_of_pairwise
      simp [List.pairwise_cons, priceLE]
    have e1 : bucketStart (300000 * k) 300000 = 300000 * k := by
      unfold bucketStart; omega
    have e2 : bucketStart (300000 * k + 120000) 300000 = 300000 * k := by
      unfold bucketStart; omega
    have e3 : bucketStart (300000 * k + 360000) 300000 = 300000 * k + 300000 := by
      unfold bucketStart; omega
    have e4 : bucketStart (300000 * k + 480000) 300000 = 300000 * k + 300000 := by
      unfold bucketStart; omega
    have s2 : updateBuckets (300000 * k) 12 [(300000 * k, ⟨10, 10, 10, 10⟩)]
        = [(300000 * k, ⟨10, 12, 10, 12⟩)] := by
      unfold updateBuckets
      rw [if_pos rfl]
      norm_num
    have s3 : updateBuckets (300000 * k + 300000) 8 [(300000 * k, ⟨10, 12, 10, 12⟩)]
        = [(300000 * k, ⟨10, 12, 10, 12⟩), (300000 * k + 300000, ⟨8, 8, 8, 8⟩)] := by
      unfold updateBuckets
      rw [if_neg (by omega)]
      rfl
    have s4 : updateBuckets (300000 * k + 300000) 9
        [(300000 * k, ⟨10, 12, 10, 12⟩), (300000 * k + 300000, ⟨8, 8, 8, 8⟩)]
        = [(300000 * k, ⟨10, 12, 10, 12⟩), (300000 * k + 300000, ⟨8, 9, 8, 9⟩)] := by
      unfold updateBuckets
      rw [if_neg (by omega)]
      unfold updateBuckets
      rw [if_pos rfl]
      norm_num
    have hbk : bucketize
        [⟨300000 * k, 10⟩, ⟨300000 * k + 120000, 12⟩,
         ⟨300000 * k + 360000, 8⟩, ⟨300000 * k + 480000, 9⟩] 300000
        = [(300000 * k, ⟨10, 12, 10, 12⟩), (300000 * k + 300000, ⟨8, 9, 8, 9⟩)] := by
      unfold bucketize
      rw [List.foldl_cons, List.foldl_cons, List.foldl_cons, List.foldl_cons,
          List.foldl_nil]
      dsimp only
      rw [e1, e2, e3, e4]
      rw [show updateBuckets (300000 * k) 10 ([] : List (ℤ × BucketAcc))
          = [(300000 * k, ⟨10, 10, 10, 10⟩)] from rfl]
      rw [s2, s3, s4]
    have hsb : sortBuckets
        [(300000 * k, (⟨10, 12, 10, 12⟩ : BucketAcc)),
         (300000 * k + 300000, ⟨8, 9, 8, 9⟩)]
        = [(300000 * k, ⟨10, 12, 10, 12⟩), (300000 * k + 300000, ⟨8, 9, 8, 9⟩)] := by
      simp only [sortBuckets]
      rw [show insertSortedKey (300000 * k + 300000, (⟨8, 9, 8, 9⟩ : BucketAcc))
          ([] : List (ℤ × BucketAcc)) = [(300000 * k + 300000, ⟨8, 9, 8, 9⟩)] from rfl]
      unfold insertSortedKey
      dsimp only
      rw [if_pos (by omega)]
    have v1 : findClosestVolume
        [⟨300000 * k + 300000, 100⟩, ⟨300000 * k + 600000, 200⟩]
        (300000 * k + 300000) = 100 := by
      have hA1 : |(300000 * k + 300000 - (300000 * k + 300000) : ℤ)| = 0 := by
        rw [show (300000 * k + 300000 - (300000 * k + 300000) : ℤ) = 0 from by ring]
        simp
      have hA2 : |(300000 * k + 600000 - (300000 * k + 300000) : ℤ)| = 300000 := by
        rw [show (300000 * k + 600000 - (300000 * k + 300000) : ℤ) = 300000 from by ring]
        decide
      unfold findClosestVolume
      dsimp only
      rw [List.foldl_cons, List.foldl_cons, List.foldl_nil]
      simp only [hA1, hA2]
      rw [if_pos (show (0 : ℤ) < 9223372036854775807 from by norm_num)]
      rw [if_neg (show ¬ ((300000 : ℤ) < 0) from by norm_num)]
    have v2 : findClosestVolume
        [⟨300000 * k + 300000, 100⟩, ⟨300000 * k + 600000, 200⟩]
        (300000 * k + 300000 + 300000) = 200 := by
      have hA1 : |(300000 * k + 300000 - (300000 * k + 300000 + 300000) : ℤ)|
          = 300000 := by
        rw [show (300000 * k + 300000 - (300000 * k + 300000 + 300000) : ℤ)
            = -300000 from by ring]
        decide
      have hA2 : |(300000 * k + 600000 - (300000 * k + 300000 + 300000) : ℤ)| = 0 := by
        rw [show (300000 * k + 600000 - (300000 * k + 300000 + 300000) : ℤ)
            = 0 from by ring]
        simp
      unfold findClosestVolume
      dsimp only
      rw [List.foldl_cons, List.foldl_cons, List.foldl_nil]
      simp only [hA1, hA2]
      rw [if_pos (show (300000 : ℤ) < 9223372036854775807 from by norm_num)]
      rw [if_pos (show (0 : ℤ) < 300000 from by norm_num)]
    unfold buildCandlesFromMarketChart
    rw [if_neg (by simp)]
    dsimp only
    rw [hd]
    rw [if_neg (by norm_num)]
    rw [hsort, hbk, hsb]
    rw [List.map_cons, List.map_cons, List.map_nil]
    dsimp only
    rw [v1, v2]
  · intro sym2 iv volumes
    unfold buildCandlesFromMarketChart
    rw [if_pos rfl]
  · intro sym2 iv prices volumes h0
    unfold buildCandlesFromMarketChart
    by_cases hp : prices = []
    · rw [if_pos hp]
    · rw [if_neg hp]
      dsimp only
      rw [h0]
      simp

/-- C3 witness: the scenario at k = 0 and the unknown-interval law at a
concrete interval string. -/
theorem candle_bucketing_witness :
    buildCandlesFromMarketChart "BTC" "5m"
      [⟨0, 10⟩, ⟨120000, 12⟩, ⟨360000, 8⟩, ⟨480000, 9⟩]
      [⟨300000, 100⟩, ⟨600000, 200⟩] =
      [{ symbol := "BTC", interval := "5m", openTime := 0,
         openP := 10, high := 12, low := 10, closeP := 12, volume := 100 },
       { symbol := "BTC", interval := "5m", openTime := 300000,
         openP := 8, high := 9, low := 8, closeP := 9, volume := 200 }] ∧
    buildCandlesFromMarketChart "BTC" "7x" [⟨0, 1⟩] [] = [] := by
  constructor
  · have h := (candle_bucketing 0 "BTC").1
    simpa using h
  · exact (candle_bucketing 0 "BTC").2.2 "BTC" "7x" [⟨0, 1⟩] [] rfl
